import Mathlib

/-!
Shallow embedding of the time-base reconciliation and resampling core of
`bdbc_nwb_packager`, together with proofs checking the natural-language
specification against the code.

Modelling conventions:
* NumPy floating-point arrays are modelled as `List (Option ℚ)`;
  `none` stands for `NaN`, exact rational arithmetic stands for the
  real-number semantics of the float operations the code performs.
* Integer index arrays are `List ℕ` (or `List ℤ` where the code uses
  negative sentinels).
* Python `while` loops are modelled with an explicit fuel argument that
  the wrapper functions instantiate with a provably sufficient value.
* Functions that `raise` in Python return `Except String`.
-/

namespace Bdbc

/-- Array indexing `values[i]` on an `Option ℚ`-valued (float) array;
out-of-range reads give `NaN` (all uses are guarded in-range). -/
def getQ (l : List (Option ℚ)) (i : ℕ) : Option ℚ :=
  l.getD i none

/-- Array indexing on an integer index array; out-of-range reads give 0
(all uses are guarded in-range). -/
def getN (l : List ℕ) (i : ℕ) : ℕ :=
  l.getD i 0

/-- Array indexing on a float (`ℚ`-valued) array; out-of-range reads
give 0 (all uses are guarded in-range). -/
def getQ0 (l : List ℚ) (i : ℕ) : ℚ :=
  l.getD i 0

/-- One interpolated value of the helper `_linear(start, stop, vstart, vend)`
inside `upsample` (alignment.py): the value at relative position `j` of the
span, i.e. `j / (siz - 1) * (vend - vstart) + vstart` with `siz = stop - start`. -/
def linVal (start stop : ℕ) (vstart vend : ℚ) (j : ℕ) : ℚ :=
  (j : ℚ) / ((stop - start - 1 : ℕ) : ℚ) * (vend - vstart) + vstart

/-- Writes the first `c` values of the `_linear` ramp into `out` at
positions `start, start+1, …, start+c-1` (out-of-range writes are dropped;
the callers below only use in-range spans). -/
def writeLinearAux (out : List (Option ℚ)) (start stop : ℕ) (vstart vend : ℚ) :
    ℕ → List (Option ℚ)
  | 0 => out
  | c + 1 =>
      (writeLinearAux out start stop vstart vend c).set (start + c)
        (some (linVal start stop vstart vend c))

/-- The slice assignment `out[start:stop] = _linear(start, stop, vstart, vend)`
of `upsample` (alignment.py). -/
def writeLinear (out : List (Option ℚ)) (start stop : ℕ) (vstart vend : ℚ) :
    List (Option ℚ) :=
  writeLinearAux out start stop vstart vend (stop - start)

/-- The probe `for skip in range(1, max_skips + 1)` of `upsample`
(alignment.py), searching from candidate `skip` with `rem` candidates left:
returns the first `skip` with `offset + skip < offsetceil` and
`values[offset + skip + 1]` non-`NaN`. -/
def findSkipAux (values : List (Option ℚ)) (offsetceil offset : ℕ) :
    ℕ → ℕ → Option ℕ
  | 0, _ => none
  | rem + 1, skip =>
      if offset + skip < offsetceil ∧ getQ values (offset + skip + 1) ≠ none then
        some skip
      else
        findSkipAux values offsetceil offset rem (skip + 1)

/-- The whole skip probe of `upsample` (alignment.py): candidates
`1, …, maxSkips`. -/
def findSkip (values : List (Option ℚ)) (offsetceil offset maxSkips : ℕ) : Option ℕ :=
  findSkipAux values offsetceil offset maxSkips 1

/-- The `while offset < offsetceil` loop of `upsample` (alignment.py).
`fuel` bounds the number of iterations; the loop advances `offset` by at
least one per iteration, so `fuel ≥ offsetceil - offset` makes the fuel
check unreachable. -/
def upsampleLoop (values : List (Option ℚ)) (p : List ℕ) (maxSkips offsetceil : ℕ) :
    ℕ → ℕ → List (Option ℚ) → List (Option ℚ)
  | 0, _, out => out
  | fuel + 1, offset, out =>
      if offset < offsetceil then
        if (getQ values offset).isNone then
          upsampleLoop values p maxSkips offsetceil fuel (offset + 1) out
        else if (getQ values (offset + 1)).isSome then
          upsampleLoop values p maxSkips offsetceil fuel (offset + 1)
            (writeLinear out (getN p offset) (getN p (offset + 1) + 1)
              ((getQ values offset).getD 0) ((getQ values (offset + 1)).getD 0))
        else if (findSkip values offsetceil offset maxSkips).isSome then
          upsampleLoop values p maxSkips offsetceil fuel
            (offset + (findSkip values offsetceil offset maxSkips).getD 0 + 1)
            (writeLinear out (getN p offset)
              (getN p (offset + (findSkip values offsetceil offset maxSkips).getD 0 + 1) + 1)
              ((getQ values offset).getD 0)
              ((getQ values
                (offset + (findSkip values offsetceil offset maxSkips).getD 0 + 1)).getD 0))
        else upsampleLoop values p maxSkips offsetceil fuel (offset + 1) out
      else out

/-- `upsample(values, size, pulseidxx, max_skips)` of alignment.py:
dense `NaN`-filled output of length `size`, then the scan loop with
`offsetceil = pulseidxx.size - 1`. -/
def upsample (values : List (Option ℚ)) (size : ℕ) (p : List ℕ) (maxSkips : ℕ) :
    List (Option ℚ) :=
  upsampleLoop values p maxSkips (p.length - 1) p.length 0 (List.replicate size none)

/-- `np.nanmean` over a slice: the mean of the non-`NaN` entries, `NaN`
(i.e. `none`) when there are none. -/
def nanmean (xs : List (Option ℚ)) : Option ℚ :=
  let v := xs.filterMap id
  if v.isEmpty then none else some (v.sum / (v.length : ℚ))

/-- The Python slice `values[start:stop]` for nonnegative clamped bounds. -/
def pySlice (l : List (Option ℚ)) (start stop : ℕ) : List (Option ℚ) :=
  (l.take stop).drop start

/-- Python `round` (also applied to NumPy scalars): round half to even. -/
def roundHalfEven (q : ℚ) : ℤ :=
  let f := ⌊q⌋
  if q - f < 1/2 then f
  else if (1:ℚ)/2 < q - f then f + 1
  else if 2 ∣ f then f else f + 1

/-- `round(np.diff(pulseidxx).mean())` of `downsample` (alignment.py):
the mean inter-pulse gap, rounded half-to-even. -/
def meanInterval (p : List ℕ) : ℤ :=
  let diffs := (p.zip p.tail).map (fun ab => (ab.2 : ℤ) - (ab.1 : ℤ))
  roundHalfEven ((diffs.sum : ℚ) / (diffs.length : ℚ))

/-- `downsample(values, pulseidxx, reduce)` of alignment.py with a caller
supplied reduction: one entry per pulse, `reduce(values[p[i]:p[i+1]])` for
`i < p.size - 1` and `reduce(values[p[-1]:min(len(values), p[-1]+interval)])`
for the final bin. -/
def downsampleWith (reduce : List (Option ℚ) → Option ℚ)
    (values : List (Option ℚ)) (p : List ℕ) : List (Option ℚ) :=
  (List.range p.length).map (fun i =>
    if i = p.length - 1 then
      let start := getN p i
      reduce (pySlice values start (min values.length ((start : ℤ) + meanInterval p).toNat))
    else
      reduce (pySlice values (getN p i) (getN p (i + 1))))

/-- `downsample` with its default reduction `np.nanmean`. -/
def downsample (values : List (Option ℚ)) (p : List ℕ) : List (Option ℚ) :=
  downsampleWith nanmean values p

end Bdbc

namespace Bdbc.tracking
/-!
The verbatim copy of the resampler that lives in
`tracking/alignment.py` (it differs from `alignment.py` only in
whitespace); embedded separately so that the equivalence of the two
copies is a statement about two definitions.
-/

/-- `_linear` inside `tracking/alignment.py`'s `upsample`. -/
def linVal (start stop : ℕ) (vstart vend : ℚ) (j : ℕ) : ℚ :=
  (j : ℚ) / ((stop - start - 1 : ℕ) : ℚ) * (vend - vstart) + vstart

/-- Slice-assignment helper for `tracking/alignment.py`'s `upsample`. -/
def writeLinearAux (out : List (Option ℚ)) (start stop : ℕ) (vstart vend : ℚ) :
    ℕ → List (Option ℚ)
  | 0 => out
  | c + 1 =>
      (writeLinearAux out start stop vstart vend c).set (start + c)
        (some (linVal start stop vstart vend c))

/-- `out[start:stop] = _linear(...)` of `tracking/alignment.py`. -/
def writeLinear (out : List (Option ℚ)) (start stop : ℕ) (vstart vend : ℚ) :
    List (Option ℚ) :=
  writeLinearAux out start stop vstart vend (stop - start)

/-- Skip probe of `tracking/alignment.py`'s `upsample`. -/
def findSkipAux (values : List (Option ℚ)) (offsetceil offset : ℕ) :
    ℕ → ℕ → Option ℕ
  | 0, _ => none
  | rem + 1, skip =>
      if offset + skip < offsetceil ∧ getQ values (offset + skip + 1) ≠ none then
        some skip
      else
        findSkipAux values offsetceil offset rem (skip + 1)

/-- Whole skip probe of `tracking/alignment.py`'s `upsample`. -/
def findSkip (values : List (Option ℚ)) (offsetceil offset maxSkips : ℕ) : Option ℕ :=
  findSkipAux values offsetceil offset maxSkips 1

/-- Main loop of `tracking/alignment.py`'s `upsample`. -/
def upsampleLoop (values : List (Option ℚ)) (p : List ℕ) (maxSkips offsetceil : ℕ) :
    ℕ → ℕ → List (Option ℚ) → List (Option ℚ)
  | 0, _, out => out
  | fuel + 1, offset, out =>
      if offset < offsetceil then
        if (getQ values offset).isNone then
          upsampleLoop values p maxSkips offsetceil fuel (offset + 1) out
        else if (getQ values (offset + 1)).isSome then
          upsampleLoop values p maxSkips offsetceil fuel (offset + 1)
            (writeLinear out (getN p offset) (getN p (offset + 1) + 1)
              ((getQ values offset).getD 0) ((getQ values (offset + 1)).getD 0))
        else if (findSkip values offsetceil offset maxSkips).isSome then
          upsampleLoop values p maxSkips offsetceil fuel
            (offset + (findSkip values offsetceil offset maxSkips).getD 0 + 1)
            (writeLinear out (getN p offset)
              (getN p (offset + (findSkip values offsetceil offset maxSkips).getD 0 + 1) + 1)
              ((getQ values offset).getD 0)
              ((getQ values
                (offset + (findSkip values offsetceil offset maxSkips).getD 0 + 1)).getD 0))
        else upsampleLoop values p maxSkips offsetceil fuel (offset + 1) out
      else out

/-- `upsample` of `tracking/alignment.py`. -/
def upsample (values : List (Option ℚ)) (size : ℕ) (p : List ℕ) (maxSkips : ℕ) :
    List (Option ℚ) :=
  upsampleLoop values p maxSkips (p.length - 1) p.length 0 (List.replicate size none)

/-- `np.nanmean` as used by `tracking/alignment.py`'s `downsample`. -/
def nanmean (xs : List (Option ℚ)) : Option ℚ :=
  let v := xs.filterMap id
  if v.isEmpty then none else some (v.sum / (v.length : ℚ))

/-- Python slice for `tracking/alignment.py`'s `downsample`. -/
def pySlice (l : List (Option ℚ)) (start stop : ℕ) : List (Option ℚ) :=
  (l.take stop).drop start

/-- Round half to even, for `tracking/alignment.py`'s `downsample`. -/
def roundHalfEven (q : ℚ) : ℤ :=
  let f := ⌊q⌋
  if q - f < 1/2 then f
  else if (1:ℚ)/2 < q - f then f + 1
  else if 2 ∣ f then f else f + 1

/-- `round(np.diff(pulseidxx).mean())` of `tracking/alignment.py`. -/
def meanInterval (p : List ℕ) : ℤ :=
  let diffs := (p.zip p.tail).map (fun ab => (ab.2 : ℤ) - (ab.1 : ℤ))
  roundHalfEven ((diffs.sum : ℚ) / (diffs.length : ℚ))

/-- `downsample` of `tracking/alignment.py`, caller-supplied reduction. -/
def downsampleWith (reduce : List (Option ℚ) → Option ℚ)
    (values : List (Option ℚ)) (p : List ℕ) : List (Option ℚ) :=
  (List.range p.length).map (fun i =>
    if i = p.length - 1 then
      let start := getN p i
      reduce (pySlice values start (min values.length ((start : ℤ) + meanInterval p).toNat))
    else
      reduce (pySlice values (getN p i) (getN p (i + 1))))

/-- `downsample` of `tracking/alignment.py` with its default `np.nanmean`. -/
def downsample (values : List (Option ℚ)) (p : List ℕ) : List (Option ℚ) :=
  downsampleWith nanmean values p

end Bdbc.tracking

namespace Bdbc

/-- Python/NumPy indexing `daq_t[daqidx]` for a signed index: nonnegative
indices from the front, negative from the back (out-of-range reads default
to 0 where NumPy raises; all uses below are guarded to in-range indices). -/
def pyIndex (l : List ℚ) (i : ℤ) : ℚ :=
  if 0 ≤ i then getQ0 l i.toNat else getQ0 l (l.length - (-i).toNat)

/-- The `while ((offset + 1) < pulsesiz) and (pulse_t[offset + 1] < daqtrig)`
loop of `daqindex_to_pulseindex` (alignment.py); fuel-bounded, advancing
`offset` while the next pulse time is strictly below `daqtrig`. -/
def advanceOffset (pulse_t : List ℚ) (pulsesiz : ℕ) (daqtrig : ℚ) :
    ℕ → ℕ → ℕ
  | 0, offset => offset
  | fuel + 1, offset =>
      if offset + 1 < pulsesiz ∧ getQ0 pulse_t (offset + 1) < daqtrig then
        advanceOffset pulse_t pulsesiz daqtrig fuel (offset + 1)
      else offset

/-- The `for i, daqidx in enumerate(daqidxx)` loop of
`daqindex_to_pulseindex` (alignment.py). The output array is prefilled
with `-2`; a `break` leaves `-2` for the current and all later entries. -/
def d2pLoop (daq_t pulse_t : List ℚ) (pulsesiz : ℕ) :
    ℕ → List ℤ → List ℤ
  | _, [] => []
  | offset, daqidx :: rest =>
      if daqidx = -1 then
        (-1) :: d2pLoop daq_t pulse_t pulsesiz offset rest
      else
        if advanceOffset pulse_t pulsesiz (pyIndex daq_t daqidx) pulsesiz offset = 0 then
          (-2) :: d2pLoop daq_t pulse_t pulsesiz
            (advanceOffset pulse_t pulsesiz (pyIndex daq_t daqidx) pulsesiz offset) rest
        else if advanceOffset pulse_t pulsesiz (pyIndex daq_t daqidx) pulsesiz offset
            = pulsesiz - 1 then
          (-2) :: rest.map (fun _ => (-2 : ℤ))
        else
          ((advanceOffset pulse_t pulsesiz (pyIndex daq_t daqidx) pulsesiz offset : ℕ) : ℤ)
            :: d2pLoop daq_t pulse_t pulsesiz
              (advanceOffset pulse_t pulsesiz (pyIndex daq_t daqidx) pulsesiz offset) rest

/-- `daqindex_to_pulseindex(daqidxx, daq_t, pulse_t)` of alignment.py. -/
def daqindex_to_pulseindex (daqidxx : List ℤ) (daq_t pulse_t : List ℚ) : List ℤ :=
  d2pLoop daq_t pulse_t pulse_t.length 0 daqidxx

/-- `Timebases` (timebases.py): one float timebase per stream; `videos`
may be absent (`None`). -/
structure Timebases where
  raw : List ℚ
  videos : Option (List ℚ)
  B : List ℚ
  V : List ℚ
deriving DecidableEq, Repr

/-- `PulseTriggers` (timebases.py): integer sample indices into `raw`,
per channel; `videos` may be absent (`None`). -/
structure PulseTriggers where
  videos : Option (List ℕ)
  B : List ℕ
  V : List ℕ
deriving DecidableEq, Repr

/-- `validate_timebase_with_rawdata(rawfile, triggers, timebases)`
(timebases.py); `num_samples` is the observed DAQ sample count read from
`behavior_raw/data` in the raw file. -/
def validate_timebase_with_rawdata (num_samples : ℕ)
    (triggers : PulseTriggers) (timebases : Timebases) :
    Except String (PulseTriggers × Timebases) :=
  let num_timepoints := timebases.raw.length
  if num_timepoints < num_samples then
    Except.error ("the number of timepoints (" ++ toString num_timepoints ++
      ") is smaller than the number of samples (" ++ toString num_samples ++ ")")
  else if num_timepoints > num_samples then
    Except.ok (triggers, { timebases with raw := timebases.raw.take num_samples })
  else
    Except.ok (triggers, timebases)

/-- One iteration of the `for chan in num_frames.keys()` loop of
`validate_timebase_with_imaging` (timebases.py): check and trim the
channel's pulses, then its ticks, against the observed frame count. -/
def imagingChannel (frames : ℕ) (pulses : List ℕ) (ticks : List ℚ) :
    Except String (List ℕ × List ℚ) := do
  let num_pulses := pulses.length
  if num_pulses < frames then
    throw ("the number of frames (" ++ toString frames ++
      ") is larger than the number of pulses (" ++ toString num_pulses ++ ")")
  let pulses := if num_pulses > frames then pulses.take frames else pulses
  let num_ticks := ticks.length
  if num_ticks < frames then
    throw ("the number of frames (" ++ toString frames ++
      ") is larger  than the number of ticks (" ++ toString num_ticks ++ ")")
  let ticks := if num_ticks > frames then ticks.take frames else ticks
  pure (pulses, ticks)

/-- `validate_timebase_with_imaging(rawfile, triggers, timebases)`
(timebases.py); `fB` and `fV` are the observed frame counts of
`image/Ib` and `image/Iv`. The Python loop runs channel `B` first, then
`V`. -/
def validate_timebase_with_imaging (fB fV : ℕ)
    (triggers : PulseTriggers) (timebases : Timebases) :
    Except String (PulseTriggers × Timebases) := do
  let rB ← imagingChannel fB triggers.B timebases.B
  let rV ← imagingChannel fV triggers.V timebases.V
  pure ({ triggers with B := rB.1, V := rV.1 },
        { timebases with B := rB.2, V := rV.2 })

end Bdbc

namespace Bdbc

/-- NumPy elementwise truthiness, as applied by `np.logical_and` to a
float array: `NaN` and every nonzero value are truthy, `0.0` is falsy. -/
def truthy (v : Option ℚ) : Bool :=
  match v with
  | none => true
  | some q => q ≠ 0

/-- `_by_percentile(v)` inside `validate_keypoint`
(tracking/validation.py), composed with the elementwise coercion that
`np.logical_and` applies to its argument. When `alpha` is `NaN`
(`none` here) the Python code returns the float array `v` itself, which
`logical_and` then coerces by truthiness; otherwise it returns the
boolean in-band mask. `nanpercentile` abstracts the external
`np.nanpercentile` call. -/
def byPercentile (nanpercentile : List (Option ℚ) → ℚ → ℚ)
    (alpha : Option ℚ) (v : List (Option ℚ)) : List Bool :=
  match alpha with
  | none => v.map truthy
  | some a =>
      let lo := nanpercentile v a
      let hi := nanpercentile v (100 - a)
      v.map (fun ov =>
        match ov with
        | none => false
        | some q => decide (lo ≤ q) && decide (q ≤ hi))

/-- The in-place masking `x[~valid] = np.nan`. -/
def maskNaN (x : List (Option ℚ)) (valid : List Bool) : List (Option ℚ) :=
  List.zipWith (fun xv ok => if ok then xv else none) x valid

/-- `validate_keypoint(dlcdata, keypoint, alpha, threshold)`
(tracking/validation.py), applied to the keypoint's extracted `x`, `y`
and `likelihood` columns. Pass 1 nulls frames whose likelihood is below
`threshold` (a `NaN` likelihood compares below everything, as in NumPy);
pass 2 applies `_by_percentile` to the pass-1 results on each axis and
nulls frames failing on either axis. Returns the final `(x, y)`. -/
def validate_keypoint (nanpercentile : List (Option ℚ) → ℚ → ℚ)
    (alpha : Option ℚ) (threshold : ℚ)
    (x y likelihood : List (Option ℚ)) : List (Option ℚ) × List (Option ℚ) :=
  let valid := likelihood.map (fun lv =>
    match lv with
    | none => false
    | some l => decide (threshold ≤ l))
  let x1 := maskNaN x valid
  let y1 := maskNaN y valid
  let valid2 := List.zipWith (· && ·)
    (byPercentile nanpercentile alpha x1)
    (byPercentile nanpercentile alpha y1)
  (maskNaN x1 valid2, maskNaN y1 valid2)

/-- The likelihood pass of `validate_keypoint` alone (its state after
`x[~valid] = nan; y[~valid] = nan` for the likelihood-based `valid`). -/
def likelihoodPass (threshold : ℚ) (x y likelihood : List (Option ℚ)) :
    List (Option ℚ) × List (Option ℚ) :=
  let valid := likelihood.map (fun lv =>
    match lv with
    | none => false
    | some l => decide (threshold ≤ l))
  (maskNaN x valid, maskNaN y valid)

/-- Keeps the entries of `col` whose position is `true` in `mask`
(`DataFrame.loc` with a boolean mask). -/
def maskFilter : List Bool → List ℤ → List ℤ
  | b :: bs, c :: cs => if b then c :: maskFilter bs cs else maskFilter bs cs
  | _, _ => []

/-- Aligns one column of `align_trials_to_pulses` (alignment.py):
`'time'` columns go through `daqindex_to_pulseindex`, `'value'` columns
pass through, anything else raises. -/
def alignColumn (trials : String → List ℤ) (daq_t pulse_t : List ℚ)
    (col typ : String) : Except String (String × List ℤ) :=
  if typ = "time" then
    Except.ok (col, daqindex_to_pulseindex (trials col) daq_t pulse_t)
  else if typ = "value" then
    Except.ok (col, trials col)
  else
    Except.error ("unexpected column type: " ++ typ)

/-- `align_trials_to_pulses(trials, daq_t, pulse_t, columnsettings)`
(alignment.py). The trial table is a map from column names to columns;
`columnsettings` is the (insertion-ordered, duplicate-free) dict of
column names to `'time'`/`'value'` tags. Rows whose aligned `start` or
`end` equals `-2` are dropped from every column. -/
def align_trials_to_pulses (trials : String → List ℤ) (daq_t pulse_t : List ℚ)
    (columnsettings : List (String × String)) :
    Except String (List (String × List ℤ)) := do
  let keys := columnsettings.map Prod.fst
  if "start" ∉ keys then
    throw "trials do not contain the \x27start\x27 column"
  if "end" ∉ keys then
    throw "trials do not contain the \x27end\x27 column"
  let aligned ← columnsettings.mapM
    (fun ct => alignColumn trials daq_t pulse_t ct.1 ct.2)
  let startCol := ((aligned.lookup "start").getD [])
  let endCol := ((aligned.lookup "end").getD [])
  let mask := List.zipWith (fun s e => !(s == (-2 : ℤ) || e == (-2 : ℤ))) startCol endCol
  pure (aligned.map (fun nc => (nc.1, maskFilter mask nc.2)))

/-- The spec's worked example for `daqindex_to_pulseindex`: DAQ times at
every integer `0..200`. -/
def exampleDaqT : List ℚ := (List.range 201).map (fun k => (k : ℚ))

/-- The spec's worked example for `daqindex_to_pulseindex`: pulses at
times `0, 10, ..., 190`. -/
def examplePulseT : List ℚ := (List.range 20).map (fun k => ((10 * k : ℕ) : ℚ))

/-- The value `v` at raw position `q` is bounded by the two endpoint
values of the interpolation span that covers `q`: an immediately
adjacent or bridged pair of known (non-`NaN`) samples `i < j` — only
`NaN`s strictly between them, gap of at most `maxSkips` pulses — with
`p[i] ≤ q ≤ p[j]` and `min a b ≤ v ≤ max a b` for their values `a`, `b`.
This is the guarantee `upsample` gives for every value it writes. -/
def onInterpSpan (values : List (Option ℚ)) (p : List ℕ) (maxSkips q : ℕ)
    (v : ℚ) : Prop :=
  ∃ i j a b, i < j ∧ getQ values i = some a ∧ getQ values j = some b ∧
    (∀ m, i < m → m < j → getQ values m = none) ∧ j - i - 1 ≤ maxSkips ∧
    getN p i ≤ q ∧ q ≤ getN p j ∧
    min a b ≤ v ∧ v ≤ max a b

end Bdbc

namespace Bdbc

lemma imagingChannel_error_iff (frames : ℕ) (pulses : List ℕ) (ticks : List ℚ) :
    (∃ m, imagingChannel frames pulses ticks = Except.error m) ↔
      pulses.length < frames ∨ ticks.length < frames := by
  unfold imagingChannel
  by_cases h1 : pulses.length < frames
  · simp [h1, throw, throwThe, MonadExceptOf.throw, Bind.bind, Except.bind]
  · by_cases h2 : ticks.length < frames
    · simp [h1, h2, throw, throwThe, MonadExceptOf.throw, Bind.bind, Except.bind, pure,
        Except.pure]
    · simp [h1, h2, throw, throwThe, MonadExceptOf.throw, Bind.bind, Except.bind, pure,
        Except.pure]

lemma imagingChannel_ok (frames : ℕ) (pulses : List ℕ) (ticks : List ℚ)
    (h1 : frames ≤ pulses.length) (h2 : frames ≤ ticks.length) :
    imagingChannel frames pulses ticks =
      Except.ok (pulses.take frames, ticks.take frames) := by
  have h1' : ¬ pulses.length < frames := by omega
  have h2' : ¬ ticks.length < frames := by omega
  have e1 : (if pulses.length > frames then pulses.take frames else pulses)
      = pulses.take frames := by
    split
    · rfl
    · have hpe : pulses.length = frames := by omega
      rw [← hpe, List.take_length]
  have e2 : (if ticks.length > frames then ticks.take frames else ticks)
      = ticks.take frames := by
    split
    · rfl
    · have hte : ticks.length = frames := by omega
      rw [← hte, List.take_length]
  unfold imagingChannel
  simp only [throw, throwThe, MonadExceptOf.throw, Bind.bind, Except.bind, pure,
    Except.pure, h1', h2', if_false, e1, e2]

end Bdbc

namespace Bdbc

/-- Claim C5: raw-data validation raises `ValueError` iff the raw
timebase has fewer entries than the observed DAQ sample count; when it
has more, the result keeps the triggers and replaces `raw` by its first
`num_samples` entries (tail trimmed, head unchanged, other fields
untouched); when the counts are equal the timebases are returned
unchanged. -/
theorem C5_rawdata_validation (num_samples : ℕ) (trig : PulseTriggers) (tb : Timebases) :
    ((∃ m, validate_timebase_with_rawdata num_samples trig tb = Except.error m) ↔
      tb.raw.length < num_samples)
    ∧ (num_samples < tb.raw.length →
        validate_timebase_with_rawdata num_samples trig tb =
          Except.ok (trig, { tb with raw := tb.raw.take num_samples }))
    ∧ (tb.raw.length = num_samples →
        validate_timebase_with_rawdata num_samples trig tb = Except.ok (trig, tb)) := by
  unfold validate_timebase_with_rawdata
  refine ⟨?_, ?_, ?_⟩
  · by_cases h : tb.raw.length < num_samples
    · simp [h]
    · simp only [h, if_false, iff_false, not_exists]
      intro m
      split <;> simp
  · intro h
    have h' : ¬ tb.raw.length < num_samples := by omega
    simp [h, h']
  · intro h
    simp [h]

/-- Witness for C5 at a concrete input: three raw ticks against two
observed samples get trimmed to the first two ticks. -/
theorem C5_rawdata_validation_witness :
    validate_timebase_with_rawdata 2 ⟨none, [], []⟩ ⟨[0, 1, 2], none, [], []⟩ =
      Except.ok (⟨none, [], []⟩, ⟨[0, 1], none, [], []⟩) := by
  have h := (C5_rawdata_validation 2 ⟨none, [], []⟩ ⟨[0, 1, 2], none, [], []⟩).2.1
    (by norm_num)
  simpa using h

/-- Claim C6: imaging validation fails iff, for channel `B` or `V`, the
pulse-trigger count or the tick count is smaller than that channel's
observed frame count; on success each channel's pulses and ticks are
truncated to their first `frames` entries (so both end with exactly
`frames` entries), and the other fields are untouched. -/
theorem C6_imaging_validation (fB fV : ℕ) (trig : PulseTriggers) (tb : Timebases) :
    ((∃ m, validate_timebase_with_imaging fB fV trig tb = Except.error m) ↔
      trig.B.length < fB ∨ tb.B.length < fB ∨ trig.V.length < fV ∨ tb.V.length < fV)
    ∧ (fB ≤ trig.B.length → fB ≤ tb.B.length → fV ≤ trig.V.length → fV ≤ tb.V.length →
        validate_timebase_with_imaging fB fV trig tb =
          Except.ok ({ trig with B := trig.B.take fB, V := trig.V.take fV },
                     { tb with B := tb.B.take fB, V := tb.V.take fV })
          ∧ (trig.B.take fB).length = fB ∧ (tb.B.take fB).length = fB
          ∧ (trig.V.take fV).length = fV ∧ (tb.V.take fV).length = fV) := by
  constructor
  · constructor
    · rintro ⟨m, hm⟩
      by_cases hB : trig.B.length < fB ∨ tb.B.length < fB
      · tauto
      · push_neg at hB
        rw [validate_timebase_with_imaging] at hm
        rw [imagingChannel_ok fB trig.B tb.B hB.1 hB.2] at hm
        by_cases hV : trig.V.length < fV ∨ tb.V.length < fV
        · tauto
        · push_neg at hV
          rw [show (Bind.bind : Except String (List ℕ × List ℚ) → _ → Except String (PulseTriggers × Timebases)) = Except.bind from rfl] at hm
          simp only [Except.bind] at hm
          rw [imagingChannel_ok fV trig.V tb.V hV.1 hV.2] at hm
          simp [pure, Except.pure] at hm
    · intro h
      rw [validate_timebase_with_imaging]
      rcases h with h | h | h | h
      · rcases (imagingChannel_error_iff fB trig.B tb.B).2 (Or.inl h) with ⟨m, hm⟩
        exact ⟨m, by simp [hm, Bind.bind, Except.bind]⟩
      · rcases (imagingChannel_error_iff fB trig.B tb.B).2 (Or.inr h) with ⟨m, hm⟩
        exact ⟨m, by simp [hm, Bind.bind, Except.bind]⟩
      · by_cases hB : trig.B.length < fB ∨ tb.B.length < fB
        · rcases (imagingChannel_error_iff fB trig.B tb.B).2 hB with ⟨m, hm⟩
          exact ⟨m, by simp [hm, Bind.bind, Except.bind]⟩
        · push_neg at hB
          rcases (imagingChannel_error_iff fV trig.V tb.V).2 (Or.inl h) with ⟨m, hm⟩
          refine ⟨m, ?_⟩
          rw [imagingChannel_ok fB trig.B tb.B hB.1 hB.2]
          simp [hm, Bind.bind, Except.bind]
      · by_cases hB : trig.B.length < fB ∨ tb.B.length < fB
        · rcases (imagingChannel_error_iff fB trig.B tb.B).2 hB with ⟨m, hm⟩
          exact ⟨m, by simp [hm, Bind.bind, Except.bind]⟩
        · push_neg at hB
          rcases (imagingChannel_error_iff fV trig.V tb.V).2 (Or.inr h) with ⟨m, hm⟩
          refine ⟨m, ?_⟩
          rw [imagingChannel_ok fB trig.B tb.B hB.1 hB.2]
          simp [hm, Bind.bind, Except.bind]
  · intro hB1 hB2 hV1 hV2
    refine ⟨?_, ?_, ?_, ?_, ?_⟩
    · rw [validate_timebase_with_imaging, imagingChannel_ok fB trig.B tb.B hB1 hB2]
      simp only [Bind.bind, Except.bind]
      rw [imagingChannel_ok fV trig.V tb.V hV1 hV2]
      simp [pure, Except.pure]
    · simp [List.length_take]; omega
    · simp [List.length_take]; omega
    · simp [List.length_take]; omega
    · simp [List.length_take]; omega

/-- Witness for C6 at a concrete input: channel `B` has an excess pulse
and tick (trimmed), channel `V` matches exactly. -/
theorem C6_imaging_validation_witness :
    validate_timebase_with_imaging 1 1 ⟨none, [3, 4], [5]⟩ ⟨[], none, [6, 7], [8]⟩ =
      Except.ok (⟨none, [3], [5]⟩, ⟨[], none, [6], [8]⟩) := by
  have h := ((C6_imaging_validation 1 1 ⟨none, [3, 4], [5]⟩ ⟨[], none, [6, 7], [8]⟩).2
    (by norm_num) (by norm_num) (by norm_num) (by norm_num)).1
  simpa using h

end Bdbc

namespace Bdbc

/-- Claim C8: `align_trials_to_pulses` with column settings containing
`'start'` but not `'end'` raises a `ValueError` whose message contains
"end"; and whenever `'start'` or `'end'` is absent it fails with an
error before doing any column processing. -/
theorem C8_missing_end_column (trials : String → List ℤ) (daq_t pulse_t : List ℚ)
    (cs : List (String × String)) :
    ("end" ∉ cs.map Prod.fst → "start" ∈ cs.map Prod.fst →
      align_trials_to_pulses trials daq_t pulse_t cs =
        Except.error "trials do not contain the \x27end\x27 column"
      ∧ "end".toList <:+: ("trials do not contain the \x27end\x27 column").toList)
    ∧ (("start" ∉ cs.map Prod.fst ∨ "end" ∉ cs.map Prod.fst) →
      ∃ m, align_trials_to_pulses trials daq_t pulse_t cs = Except.error m) := by
  constructor
  · intro hend hstart
    constructor
    · rw [align_trials_to_pulses]
      simp [hstart, hend, throw, throwThe, MonadExceptOf.throw, Bind.bind, Except.bind,
        pure, Except.pure]
    · decide
  · intro h
    by_cases hstart : "start" ∈ cs.map Prod.fst
    · have hend : "end" ∉ cs.map Prod.fst := by tauto
      refine ⟨"trials do not contain the \x27end\x27 column", ?_⟩
      rw [align_trials_to_pulses]
      simp [hstart, hend, throw, throwThe, MonadExceptOf.throw, Bind.bind, Except.bind,
        pure, Except.pure]
    · refine ⟨"trials do not contain the \x27start\x27 column", ?_⟩
      rw [align_trials_to_pulses]
      simp [hstart, throw, throwThe, MonadExceptOf.throw, Bind.bind, Except.bind]

/-- Witness for C8 at a concrete input: settings with only a `'start'`
column. -/
theorem C8_missing_end_column_witness :
    align_trials_to_pulses (fun _ => []) [] [] [("start", "time")] =
      Except.error "trials do not contain the \x27end\x27 column" :=
  ((C8_missing_end_column (fun _ => []) [] [] [("start", "time")]).1
    (by decide) (by decide)).1

/-- Counterexample to claim C2: on the spec's worked example the code
does not return `[-1, 0, 10]` (entry 1 is not the first pulse interval
and entry 2 is not interval 10). -/
theorem C2_worked_example_counterexample :
    daqindex_to_pulseindex [-1, 5, 100] exampleDaqT examplePulseT ≠ [-1, 0, 10] := by
  decide

/-- Claim C2 as amended: on the worked example the code returns
`[-1, -2, 9]`: entry 0 passes the `-1` sentinel through; entry 1 is `-2`
because a DAQ index inside the first pulse interval is treated as out of
the pulse period; entry 2 is `9` because DAQ index 100 coincides with
the pulse at index 10 and the strictly-less scan stops at offset 9. -/
theorem C2_worked_example_amended :
    daqindex_to_pulseindex [-1, 5, 100] exampleDaqT examplePulseT = [-1, -2, 9] := by
  decide

/-- Claim C3 (the code-bug theorem): with `alpha` disabled (`NaN`), the
percentile pass is not a no-op. On a frame whose post-likelihood `x`
coordinate is exactly `0`, `validate_keypoint` nulls both coordinates
(NumPy truthiness of the float array returned by `_by_percentile`),
while the likelihood pass alone keeps them; this holds for every
percentile implementation and every threshold at most 1. -/
theorem C3_percentile_disabled_not_noop
    (nanpercentile : List (Option ℚ) → ℚ → ℚ) (threshold : ℚ)
    (h : threshold ≤ 1) :
    validate_keypoint nanpercentile none threshold [some 0] [some 1] [some 1]
      = ([none], [none])
    ∧ likelihoodPass threshold [some 0] [some 1] [some 1]
      = ([some 0], [some 1]) := by
  constructor
  · simp [validate_keypoint, maskNaN, byPercentile, truthy, h]
  · simp [likelihoodPass, maskNaN, h]

/-- Witness for C3 at a concrete percentile function and threshold. -/
theorem C3_percentile_disabled_not_noop_witness :
    validate_keypoint (fun _ _ => 0) none 0 [some 0] [some 1] [some 1]
      = ([none], [none]) :=
  (C3_percentile_disabled_not_noop (fun _ _ => 0) 0 (by norm_num)).1

lemma tracking_writeLinearAux_eq (out : List (Option ℚ)) (start stop : ℕ)
    (vstart vend : ℚ) : ∀ c,
    tracking.writeLinearAux out start stop vstart vend c =
      writeLinearAux out start stop vstart vend c := by
  intro c
  induction c with
  | zero => rfl
  | succ c ih =>
      simp only [tracking.writeLinearAux, writeLinearAux, ih]
      rfl

lemma tracking_findSkipAux_eq (values : List (Option ℚ)) (offsetceil offset : ℕ) :
    ∀ rem skip,
    tracking.findSkipAux values offsetceil offset rem skip =
      findSkipAux values offsetceil offset rem skip := by
  intro rem
  induction rem with
  | zero => intro skip; rfl
  | succ rem ih =>
      intro skip
      rw [tracking.findSkipAux, findSkipAux]
      split
      · rfl
      · exact ih (skip + 1)

lemma tracking_writeLinear_eq : tracking.writeLinear = writeLinear := by
  funext out start stop vstart vend
  rw [tracking.writeLinear, writeLinear, tracking_writeLinearAux_eq]

lemma tracking_findSkip_eq : tracking.findSkip = findSkip := by
  funext values offsetceil offset maxSkips
  exact tracking_findSkipAux_eq values offsetceil offset maxSkips 1

lemma tracking_upsampleLoop_eq (values : List (Option ℚ)) (p : List ℕ)
    (maxSkips offsetceil : ℕ) : ∀ fuel offset out,
    tracking.upsampleLoop values p maxSkips offsetceil fuel offset out =
      upsampleLoop values p maxSkips offsetceil fuel offset out := by
  intro fuel
  induction fuel with
  | zero => intro offset out; rfl
  | succ fuel ih =>
      intro offset out
      rw [tracking.upsampleLoop, upsampleLoop, tracking_writeLinear_eq, tracking_findSkip_eq]
      simp only [ih]

/-- Claim C10: the resampler copy in `tracking/alignment.py` is
equivalent to the one in `alignment.py`: `upsample` agrees on every
input (values, size, pulse indices, max skips) and `downsample` agrees
on every input (values, pulse indices), including with any
caller-supplied reduction. -/
theorem C10_resampler_copies_equal :
    (∀ values size p maxSkips,
        tracking.upsample values size p maxSkips = upsample values size p maxSkips)
    ∧ (∀ reduce values p,
        tracking.downsampleWith reduce values p = downsampleWith reduce values p)
    ∧ (∀ values p, tracking.downsample values p = downsample values p) := by
  refine ⟨?_, fun _ _ _ => rfl, fun _ _ => rfl⟩
  intro values size p maxSkips
  exact tracking_upsampleLoop_eq values p maxSkips (p.length - 1) p.length 0 _

/-- Counterexample to claim C1: the round-trip
`downsample(upsample(x, size, p), p)` with the default mean reduction
does not restore `x` at every pulse index: for `x = [0, 2]`,
`p = [0, 2]`, `size = 3` (no internal `NaN` gaps) the first entry comes
back as `1/2`, the mean of the interpolated ramp over `[0, 2)`, not `0`. -/
theorem C1_roundtrip_counterexample :
    downsample (upsample [some 0, some 2] 3 [0, 2] 1) [0, 2] ≠ [some 0, some 2] := by
  have h : downsample (upsample [some 0, some 2] 3 [0, 2] 1) [0, 2]
      = [some (1/2), some 2] := by
    norm_num [downsample, downsampleWith, nanmean, pySlice, meanInterval, roundHalfEven,
      upsample, upsampleLoop, writeLinear, writeLinearAux, linVal, List.range_succ,
      getQ, getN, findSkip, findSkipAux, List.replicate, List.set, List.take, List.drop,
      List.filterMap]
    decide
  rw [h]
  intro hc
  have h0 := List.head_eq_of_cons_eq hc
  norm_num at h0

end Bdbc

namespace Bdbc

lemma getQ_eq_getElem? (l : List (Option ℚ)) (q : ℕ) : getQ l q = (l[q]?).getD none :=
  List.getD_eq_getElem?_getD l q none

lemma getQ_eq_none_of_le (l : List (Option ℚ)) (q : ℕ) (h : l.length ≤ q) :
    getQ l q = none := by
  rw [getQ_eq_getElem?, List.getElem?_eq_none h]
  rfl

lemma getQ_set (l : List (Option ℚ)) (i : ℕ) (v : Option ℚ) (q : ℕ) :
    getQ (l.set i v) q = if q = i ∧ i < l.length then v else getQ l q := by
  rw [getQ_eq_getElem?, getQ_eq_getElem?, List.getElem?_set]
  by_cases h1 : i = q
  · subst h1
    rw [if_pos rfl]
    by_cases h2 : i < l.length
    · rw [if_pos h2, if_pos ⟨rfl, h2⟩]
      rfl
    · have hcond : ¬(i = i ∧ i < l.length) := by omega
      rw [if_neg h2, if_neg hcond, List.getElem?_eq_none (by omega)]
  · have hcond : ¬(q = i ∧ i < l.length) := by omega
    rw [if_neg h1, if_neg hcond]

lemma getQ_replicate (size q : ℕ) :
    getQ (List.replicate size (none : Option ℚ)) q = none := by
  rw [getQ_eq_getElem?, List.getElem?_replicate]
  split <;> rfl

lemma linVal_zero (start stop : ℕ) (a b : ℚ) : linVal start stop a b 0 = a := by
  simp [linVal]

lemma linVal_last (start stop : ℕ) (a b : ℚ) (h : start + 2 ≤ stop) :
    linVal start stop a b (stop - 1 - start) = b := by
  have hd : (stop - 1 - start : ℕ) = stop - start - 1 := by omega
  have hne : ((stop - start - 1 : ℕ) : ℚ) ≠ 0 := Nat.cast_ne_zero.mpr (by omega)
  rw [linVal, hd, div_self hne]
  ring

lemma linVal_bounds (start stop : ℕ) (a b : ℚ) (k : ℕ) (hk : k ≤ stop - start - 1) :
    min a b ≤ linVal start stop a b k ∧ linVal start stop a b k ≤ max a b := by
  rw [linVal]
  have hkc : (k : ℚ) ≤ ((stop - start - 1 : ℕ) : ℚ) := by exact_mod_cast hk
  set d : ℚ := ((stop - start - 1 : ℕ) : ℚ) with hd
  by_cases hd0 : d = 0
  · rw [hd0, div_zero, zero_mul, zero_add]
    exact ⟨min_le_left a b, le_max_left a b⟩
  · have hk' : (k : ℚ) ≤ d := hkc
    have hk0 : (0 : ℚ) ≤ (k : ℚ) := Nat.cast_nonneg k
    have hdnn : (0 : ℚ) ≤ d := Nat.cast_nonneg _
    have hdpos : (0 : ℚ) < d := lt_of_le_of_ne hdnn (Ne.symm hd0)
    have hr0 : (0 : ℚ) ≤ (k : ℚ) / d := div_nonneg hk0 hdnn
    have hr1 : (k : ℚ) / d ≤ 1 := (div_le_one hdpos).mpr hk'
    set r : ℚ := (k : ℚ) / d
    constructor
    · rcases le_total a b with hab | hab
      · rw [min_eq_left hab]
        nlinarith [mul_nonneg hr0 (sub_nonneg.mpr hab)]
      · rw [min_eq_right hab]
        nlinarith [mul_nonneg (sub_nonneg.mpr hr1) (sub_nonneg.mpr hab)]
    · rcases le_total a b with hab | hab
      · rw [max_eq_right hab]
        nlinarith [mul_nonneg (sub_nonneg.mpr hr1) (sub_nonneg.mpr hab)]
      · rw [max_eq_left hab]
        nlinarith [mul_nonneg hr0 (sub_nonneg.mpr hab)]

lemma writeLinearAux_length (out : List (Option ℚ)) (start stop : ℕ) (a b : ℚ) :
    ∀ c, (writeLinearAux out start stop a b c).length = out.length := by
  intro c
  induction c with
  | zero => rfl
  | succ c ih => simp [writeLinearAux, List.length_set, ih]

lemma getQ_writeLinearAux (out : List (Option ℚ)) (start stop : ℕ) (a b : ℚ) :
    ∀ c q, getQ (writeLinearAux out start stop a b c) q =
      if start ≤ q ∧ q < start + c ∧ q < out.length then
        some (linVal start stop a b (q - start))
      else getQ out q := by
  intro c
  induction c with
  | zero =>
      intro q
      rw [writeLinearAux, if_neg (by omega)]
  | succ c ih =>
      intro q
      rw [writeLinearAux, getQ_set, writeLinearAux_length, ih q]
      by_cases h1 : q = start + c ∧ start + c < out.length
      · obtain ⟨rfl, h2⟩ := h1
        rw [if_pos ⟨rfl, h2⟩, if_pos ⟨by omega, by omega, h2⟩,
          show start + c - start = c from by omega]
      · rw [if_neg h1]
        by_cases h2 : start ≤ q ∧ q < start + c ∧ q < out.length
        · rw [if_pos h2, if_pos ⟨h2.1, by omega, h2.2.2⟩]
        · rw [if_neg h2, if_neg (by omega)]

lemma writeLinear_length (out : List (Option ℚ)) (start stop : ℕ) (a b : ℚ) :
    (writeLinear out start stop a b).length = out.length :=
  writeLinearAux_length out start stop a b _

lemma getQ_writeLinear (out : List (Option ℚ)) (start stop : ℕ) (a b : ℚ) (q : ℕ) :
    getQ (writeLinear out start stop a b) q =
      if start ≤ q ∧ q < stop ∧ q < out.length then
        some (linVal start stop a b (q - start))
      else getQ out q := by
  rw [writeLinear, getQ_writeLinearAux]
  by_cases h : start ≤ q ∧ q < start + (stop - start) ∧ q < out.length
  · rw [if_pos h, if_pos ⟨h.1, by omega, h.2.2⟩]
  · rw [if_neg h, if_neg (by omega)]

lemma findSkipAux_some (values : List (Option ℚ)) (oc off : ℕ) :
    ∀ rem skip s, findSkipAux values oc off rem skip = some s →
      skip ≤ s ∧ s < skip + rem ∧ off + s < oc ∧ getQ values (off + s + 1) ≠ none ∧
        ∀ m, skip ≤ m → m < s → getQ values (off + m + 1) = none := by
  intro rem
  induction rem with
  | zero => intro skip s h; simp [findSkipAux] at h
  | succ rem ih =>
      intro skip s h
      rw [findSkipAux] at h
      by_cases hc : off + skip < oc ∧ getQ values (off + skip + 1) ≠ none
      · rw [if_pos hc] at h
        obtain rfl : skip = s := by injection h
        exact ⟨le_rfl, by omega, hc.1, hc.2, fun m hm1 hm2 => by omega⟩
      · rw [if_neg hc] at h
        obtain ⟨h1, h2, h3, h4, h5⟩ := ih (skip + 1) s h
        refine ⟨by omega, by omega, h3, h4, ?_⟩
        intro m hm1 hm2
        by_cases hm : m = skip
        · subst hm
          by_cases hocc : off + m < oc
          · by_contra hne
            exact hc ⟨hocc, hne⟩
          · exact absurd (by omega : off + m < oc) hocc
        · exact h5 m (by omega) hm2

lemma findSkipAux_eq_some (values : List (Option ℚ)) (oc off : ℕ) :
    ∀ rem skip s, skip ≤ s → s < skip + rem → off + s < oc →
      getQ values (off + s + 1) ≠ none →
      (∀ m, skip ≤ m → m < s → getQ values (off + m + 1) = none) →
      findSkipAux values oc off rem skip = some s := by
  intro rem
  induction rem with
  | zero => intro skip s h1 h2 _ _ _; omega
  | succ rem ih =>
      intro skip s h1 h2 h3 h4 h5
      rw [findSkipAux]
      by_cases hs : skip = s
      · subst hs
        rw [if_pos ⟨h3, h4⟩]
      · have hnone := h5 skip le_rfl (by omega)
        rw [if_neg (by simp [hnone])]
        exact ih (skip + 1) s (by omega) (by omega) h3 h4
          (fun m hm1 hm2 => h5 m (by omega) hm2)

end Bdbc

namespace Bdbc

lemma getN_mono_le (p : List ℕ)
    (hmono : ∀ i j, i < j → j < p.length → getN p i < getN p j) :
    ∀ i j, i ≤ j → j < p.length → getN p i ≤ getN p j := by
  intro i j hij hj
  rcases eq_or_lt_of_le hij with rfl | h
  · exact le_rfl
  · exact (hmono i j h hj).le

lemma loop_length (values : List (Option ℚ)) (p : List ℕ) (maxSkips oc : ℕ) :
    ∀ fuel offset out,
      (upsampleLoop values p maxSkips oc fuel offset out).length = out.length := by
  intro fuel
  induction fuel with
  | zero => intro offset out; rfl
  | succ fuel ih =>
      intro offset out
      rw [upsampleLoop]
      by_cases hlt : offset < oc
      · rw [if_pos hlt]
        by_cases hv : (getQ values offset).isNone = true
        · rw [if_pos hv]
          exact ih (offset + 1) out
        · rw [if_neg hv]
          by_cases hv1 : (getQ values (offset + 1)).isSome = true
          · rw [if_pos hv1, ih, writeLinear_length]
          · rw [if_neg hv1]
            by_cases hf : (findSkip values oc offset maxSkips).isSome = true
            · rw [if_pos hf, ih, writeLinear_length]
            · rw [if_neg hf]
              exact ih (offset + 1) out
      · rw [if_neg hlt]

lemma loop_preserves_left (values : List (Option ℚ)) (p : List ℕ) (maxSkips : ℕ)
    (hmono : ∀ i j, i < j → j < p.length → getN p i < getN p j) :
    ∀ fuel offset out q, offset ≤ p.length - 1 → q < getN p offset →
      getQ (upsampleLoop values p maxSkips (p.length - 1) fuel offset out) q =
        getQ out q := by
  intro fuel
  induction fuel with
  | zero => intro offset out q _ _; rfl
  | succ fuel ih =>
      intro offset out q hoff hq
      rw [upsampleLoop]
      by_cases hlt : offset < p.length - 1
      · rw [if_pos hlt]
        have hlen2 : 2 ≤ p.length := by omega
        have hq1 : q < getN p (offset + 1) :=
          lt_of_lt_of_le hq (getN_mono_le p hmono offset (offset + 1) (by omega) (by omega))
        by_cases hv : (getQ values offset).isNone = true
        · rw [if_pos hv]
          exact ih (offset + 1) out q (by omega) hq1
        · rw [if_neg hv]
          by_cases hv1 : (getQ values (offset + 1)).isSome = true
          · rw [if_pos hv1, ih (offset + 1) _ q (by omega) hq1, getQ_writeLinear,
              if_neg (by omega)]
          · rw [if_neg hv1]
            cases hf : findSkip values (p.length - 1) offset maxSkips with
            | none => simp only [hf, Option.isSome_none, Bool.false_eq_true, if_false]
                      exact ih (offset + 1) out q (by omega) hq1
            | some skip =>
                simp only [hf, Option.isSome_some, if_true, Option.getD_some]
                rw [findSkip] at hf
                obtain ⟨hs1, hs2, hs3, hs4, hs5⟩ :=
                  findSkipAux_some values (p.length - 1) offset maxSkips 1 skip hf
                have hoff' : offset + skip + 1 ≤ p.length - 1 := by omega
                have hq2 : q < getN p (offset + skip + 1) :=
                  lt_of_lt_of_le hq
                    (getN_mono_le p hmono offset (offset + skip + 1) (by omega) (by omega))
                rw [ih (offset + skip + 1) _ q hoff' hq2, getQ_writeLinear,
                  if_neg (by omega)]
      · rw [if_neg hlt]

lemma loop_preserves_right (values : List (Option ℚ)) (p : List ℕ) (maxSkips : ℕ)
    (hmono : ∀ i j, i < j → j < p.length → getN p i < getN p j) (hn : 1 ≤ p.length) :
    ∀ fuel offset out q, getN p (p.length - 1) < q →
      getQ (upsampleLoop values p maxSkips (p.length - 1) fuel offset out) q =
        getQ out q := by
  intro fuel
  induction fuel with
  | zero => intro offset out q _; rfl
  | succ fuel ih =>
      intro offset out q hq
      rw [upsampleLoop]
      by_cases hlt : offset < p.length - 1
      · rw [if_pos hlt]
        by_cases hv : (getQ values offset).isNone = true
        · rw [if_pos hv]
          exact ih (offset + 1) out q hq
        · rw [if_neg hv]
          by_cases hv1 : (getQ values (offset + 1)).isSome = true
          · rw [if_pos hv1, ih (offset + 1) _ q hq, getQ_writeLinear]
            have hstop : getN p (offset + 1) ≤ getN p (p.length - 1) :=
              getN_mono_le p hmono (offset + 1) (p.length - 1) (by omega) (by omega)
            rw [if_neg (by omega)]
          · rw [if_neg hv1]
            cases hf : findSkip values (p.length - 1) offset maxSkips with
            | none => simp only [hf, Option.isSome_none, Bool.false_eq_true, if_false]
                      exact ih (offset + 1) out q hq
            | some skip =>
                simp only [hf, Option.isSome_some, if_true, Option.getD_some]
                rw [findSkip] at hf
                obtain ⟨hs1, hs2, hs3, hs4, hs5⟩ :=
                  findSkipAux_some values (p.length - 1) offset maxSkips 1 skip hf
                have hstop : getN p (offset + skip + 1) ≤ getN p (p.length - 1) :=
                  getN_mono_le p hmono (offset + skip + 1) (p.length - 1)
                    (by omega) (by omega)
                rw [ih (offset + skip + 1) _ q hq, getQ_writeLinear, if_neg (by omega)]
      · rw [if_neg hlt]

end Bdbc

namespace Bdbc

lemma loop_keeps_current (values : List (Option ℚ)) (p : List ℕ) (maxSkips : ℕ)
    (hmono : ∀ i j, i < j → j < p.length → getN p i < getN p j) :
    ∀ fuel offset out c, offset ≤ p.length - 1 → getQ values offset = some c →
      getQ out (getN p offset) = some c →
      getQ (upsampleLoop values p maxSkips (p.length - 1) fuel offset out)
        (getN p offset) = some c := by
  intro fuel offset out c hoff hv hco
  cases fuel with
  | zero => exact hco
  | succ fuel =>
      rw [upsampleLoop]
      by_cases hlt : offset < p.length - 1
      · rw [if_pos hlt]
        have hnv : ¬((getQ values offset).isNone = true) := by simp [hv]
        rw [if_neg hnv]
        cases hv1 : getQ values (offset + 1) with
        | some v1 =>
            rw [if_pos (show (some v1).isSome = true by simp)]
            simp only [hv, Option.getD_some]
            have hmlt : getN p offset < getN p (offset + 1) :=
              hmono offset (offset + 1) (by omega) (by omega)
            rw [loop_preserves_left values p maxSkips hmono fuel (offset + 1) _ _
              (by omega) hmlt, getQ_writeLinear]
            by_cases hin : getN p offset < out.length
            · rw [if_pos ⟨le_rfl, by omega, hin⟩, Nat.sub_self, linVal_zero]
            · rw [if_neg (by omega)]
              exact hco
        | none =>
            rw [if_neg (show ¬((none : Option ℚ).isSome = true) by simp)]
            cases hf : findSkip values (p.length - 1) offset maxSkips with
            | none =>
                rw [if_neg (show ¬((none : Option ℕ).isSome = true) by simp)]
                have hmlt : getN p offset < getN p (offset + 1) :=
                  hmono offset (offset + 1) (by omega) (by omega)
                rw [loop_preserves_left values p maxSkips hmono fuel (offset + 1) out _
                  (by omega) hmlt]
                exact hco
            | some skip =>
                rw [if_pos (show (some skip).isSome = true by simp)]
                simp only [Option.getD_some]
                rw [findSkip] at hf
                obtain ⟨hs1', hs2', hs3', hs4', hs5'⟩ :=
                  findSkipAux_some values (p.length - 1) offset maxSkips 1 skip hf
                simp only [hv, Option.getD_some]
                have hmlt : getN p offset < getN p (offset + skip + 1) :=
                  hmono offset (offset + skip + 1) (by omega) (by omega)
                rw [loop_preserves_left values p maxSkips hmono fuel (offset + skip + 1) _ _
                  (by omega) hmlt, getQ_writeLinear]
                by_cases hin : getN p offset < out.length
                · rw [if_pos ⟨le_rfl, by omega, hin⟩, Nat.sub_self, linVal_zero]
                · rw [if_neg (by omega)]
                  exact hco
      · rw [if_neg hlt]
        exact hco

lemma writeLinear_good (values out : List (Option ℚ)) (p : List ℕ)
    (maxSkips : ℕ) (i0 j0 : ℕ) (a b : ℚ)
    (hij : i0 < j0) (ha : getQ values i0 = some a) (hb : getQ values j0 = some b)
    (hgap : ∀ m, i0 < m → m < j0 → getQ values m = none)
    (hskips : j0 - i0 - 1 ≤ maxSkips)
    (hout : ∀ q v, getQ out q = some v → onInterpSpan values p maxSkips q v) :
    ∀ q v, getQ (writeLinear out (getN p i0) (getN p j0 + 1) a b) q = some v →
      onInterpSpan values p maxSkips q v := by
  intro q v h
  rw [getQ_writeLinear] at h
  by_cases hc : getN p i0 ≤ q ∧ q < getN p j0 + 1 ∧ q < out.length
  · rw [if_pos hc] at h
    obtain ⟨hb1, hb2⟩ :=
      linVal_bounds (getN p i0) (getN p j0 + 1) a b (q - getN p i0) (by omega)
    injection h with hval
    exact ⟨i0, j0, a, b, hij, ha, hb, hgap, hskips, hc.1, by omega,
      by rw [← hval]; exact hb1, by rw [← hval]; exact hb2⟩
  · rw [if_neg hc] at h
    exact hout q v h

lemma loop_good (values : List (Option ℚ)) (p : List ℕ) (maxSkips oc : ℕ) :
    ∀ fuel offset out,
      (∀ q v, getQ out q = some v → onInterpSpan values p maxSkips q v) →
      ∀ q v, getQ (upsampleLoop values p maxSkips oc fuel offset out) q = some v →
        onInterpSpan values p maxSkips q v := by
  intro fuel
  induction fuel with
  | zero => intro offset out hout q v h; exact hout q v h
  | succ fuel ih =>
      intro offset out hout q v h
      rw [upsampleLoop] at h
      by_cases hlt : offset < oc
      · rw [if_pos hlt] at h
        cases hv : getQ values offset with
        | none =>
            rw [if_pos (by simp [hv])] at h
            exact ih (offset + 1) out hout q v h
        | some v0 =>
            rw [if_neg (by simp [hv])] at h
            cases hv1 : getQ values (offset + 1) with
            | some v1 =>
                rw [if_pos (by simp [hv1])] at h
                simp only [hv, hv1, Option.getD_some] at h
                exact ih (offset + 1) _
                  (writeLinear_good values out p maxSkips offset (offset + 1) v0 v1
                    (by omega) hv hv1 (fun m h1 h2 => by omega) (by omega) hout) q v h
            | none =>
                rw [if_neg (by simp [hv1])] at h
                cases hf : findSkip values oc offset maxSkips with
                | none =>
                    rw [if_neg (by simp [hf])] at h
                    exact ih (offset + 1) out hout q v h
                | some skip =>
                    rw [if_pos (by simp [hf])] at h
                    simp only [hf, Option.getD_some, hv] at h
                    rw [findSkip] at hf
                    obtain ⟨hs1, hs2, hs3, hs4, hs5⟩ :=
                      findSkipAux_some values oc offset maxSkips 1 skip hf
                    obtain ⟨w, hw⟩ := Option.ne_none_iff_exists'.mp hs4
                    rw [hw] at h
                    simp only [Option.getD_some] at h
                    have hgap3 : ∀ m, offset < m → m < offset + skip + 1 →
                        getQ values m = none := by
                      intro m h1 h2
                      by_cases hm1 : m = offset + 1
                      · rw [hm1]
                        exact hv1
                      · have hh := hs5 (m - offset - 1) (by omega) (by omega)
                        rwa [show offset + (m - offset - 1) + 1 = m from by omega] at hh
                    exact ih (offset + skip + 1) _
                      (writeLinear_good values out p maxSkips offset (offset + skip + 1)
                        v0 w (by omega) hv hw hgap3 (by omega) hout) q v h
      · rw [if_neg hlt] at h
        exact hout q v h

lemma loop_after_write (values : List (Option ℚ)) (p : List ℕ) (maxSkips : ℕ)
    (hmono : ∀ i j, i < j → j < p.length → getN p i < getN p j)
    (hlen2 : 2 ≤ p.length) (fuel : ℕ) (out : List (Option ℚ))
    (i j : ℕ) (a b : ℚ) (hij : i < j) (hj : j ≤ p.length - 1)
    (hb : getQ values j = some b) (hjlen : getN p j < out.length) :
    getQ (upsampleLoop values p maxSkips (p.length - 1) fuel j
        (writeLinear out (getN p i) (getN p j + 1) a b)) (getN p i) = some a ∧
    getQ (upsampleLoop values p maxSkips (p.length - 1) fuel j
        (writeLinear out (getN p i) (getN p j + 1) a b)) (getN p j) = some b := by
  have hmlt : getN p i < getN p j := hmono i j hij (by omega)
  have hilen : getN p i < out.length := lt_trans hmlt hjlen
  constructor
  · rw [loop_preserves_left values p maxSkips hmono fuel j _ _ hj hmlt, getQ_writeLinear,
      if_pos ⟨le_rfl, by omega, hilen⟩, Nat.sub_self, linVal_zero]
  · apply loop_keeps_current values p maxSkips hmono fuel j _ b hj hb
    rw [getQ_writeLinear, if_pos ⟨hmlt.le, by omega, hjlen⟩]
    have hlv := linVal_last (getN p i) (getN p j + 1) a b (by omega)
    rw [show getN p j - getN p i = getN p j + 1 - 1 - getN p i from by omega, hlv]

end Bdbc

namespace Bdbc

lemma loop_pulse_exact (values : List (Option ℚ)) (p : List ℕ) (maxSkips : ℕ)
    (hmono : ∀ i j, i < j → j < p.length → getN p i < getN p j) :
    ∀ fuel offset out i j a b,
      offset ≤ i → i < j → j ≤ p.length - 1 →
      getQ values i = some a → getQ values j = some b →
      (∀ m, i < m → m < j → getQ values m = none) →
      j - i - 1 ≤ maxSkips →
      getN p j < out.length →
      p.length - 1 ≤ offset + fuel →
      getQ (upsampleLoop values p maxSkips (p.length - 1) fuel offset out)
        (getN p i) = some a ∧
      getQ (upsampleLoop values p maxSkips (p.length - 1) fuel offset out)
        (getN p j) = some b := by
  intro fuel
  induction fuel with
  | zero =>
      intro offset out i j a b h_oi h_ij h_j _ _ _ _ _ hfuel
      exact absurd hfuel (by omega)
  | succ fuel ih =>
      intro offset out i j a b h_oi h_ij h_j ha hb hgap hskips hjlen hfuel
      have hlt : offset < p.length - 1 := by omega
      have hlen2 : 2 ≤ p.length := by omega
      rw [upsampleLoop, if_pos hlt]
      by_cases hoi : offset = i
      · subst hoi
        rw [if_neg (show ¬((getQ values offset).isNone = true) by simp [ha])]
        by_cases hj1 : j = offset + 1
        · subst hj1
          rw [if_pos (show (getQ values (offset + 1)).isSome = true by simp [hb])]
          simp only [ha, hb, Option.getD_some]
          exact loop_after_write values p maxSkips hmono hlen2 fuel out offset
            (offset + 1) a b (by omega) h_j hb hjlen
        · have hv1 : getQ values (offset + 1) = none := hgap (offset + 1) (by omega) (by omega)
          rw [if_neg (show ¬((getQ values (offset + 1)).isSome = true) by simp [hv1])]
          have hf : findSkip values (p.length - 1) offset maxSkips
              = some (j - offset - 1) := by
            rw [findSkip]
            apply findSkipAux_eq_some
            · omega
            · omega
            · omega
            · rw [show offset + (j - offset - 1) + 1 = j from by omega, hb]
              exact fun hcc => Option.noConfusion hcc
            · intro m hm1 hm2
              exact hgap (offset + m + 1) (by omega) (by omega)
          rw [if_pos (show (findSkip values (p.length - 1) offset maxSkips).isSome = true
            by simp [hf])]
          simp only [hf, Option.getD_some]
          rw [show offset + (j - offset - 1) + 1 = j from by omega]
          simp only [ha, hb, Option.getD_some]
          exact loop_after_write values p maxSkips hmono hlen2 fuel out offset
            j a b h_ij h_j hb hjlen
      · have hoi' : offset < i := by omega
        cases hv : getQ values offset with
        | none =>
            rw [if_pos (by simp)]
            exact ih (offset + 1) out i j a b (by omega) h_ij h_j ha hb hgap hskips
              hjlen (by omega)
        | some v0 =>
            rw [if_neg (by simp)]
            cases hv1 : getQ values (offset + 1) with
            | some v1 =>
                rw [if_pos (by simp)]
                refine ih (offset + 1) _ i j a b (by omega) h_ij h_j ha hb hgap hskips
                  ?_ (by omega)
                rw [writeLinear_length]
                exact hjlen
            | none =>
                rw [if_neg (by simp)]
                cases hf : findSkip values (p.length - 1) offset maxSkips with
                | none =>
                    rw [if_neg (by simp)]
                    exact ih (offset + 1) out i j a b (by omega) h_ij h_j ha hb hgap
                      hskips hjlen (by omega)
                | some skip =>
                    rw [if_pos (by simp)]
                    simp only [Option.getD_some]
                    rw [findSkip] at hf
                    obtain ⟨hs1', hs2', hs3', hs4', hs5'⟩ :=
                      findSkipAux_some values (p.length - 1) offset maxSkips 1 skip hf
                    have hle : offset + skip + 1 ≤ i := by
                      by_contra hgt
                      push_neg at hgt
                      have hnone : getQ values i = none := by
                        by_cases hi1 : i = offset + 1
                        · rw [hi1]; exact hv1
                        · have hh := hs5' (i - offset - 1) (by omega) (by omega)
                          rw [show offset + (i - offset - 1) + 1 = i from by omega] at hh
                          exact hh
                      rw [ha] at hnone
                      exact Option.noConfusion hnone
                    refine ih (offset + skip + 1) _ i j a b hle h_ij h_j ha hb hgap
                      hskips ?_ (by omega)
                    rw [writeLinear_length]
                    exact hjlen
      
end Bdbc

namespace Bdbc

lemma int_sum_ge_length (l : List ℤ) (h : ∀ x ∈ l, 1 ≤ x) : (l.length : ℤ) ≤ l.sum := by
  induction l with
  | nil => simp
  | cons x t ih =>
      have hx := h x (List.mem_cons_self x t)
      have ht := ih (fun y hy => h y (List.mem_cons_of_mem x hy))
      simp only [List.length_cons, List.sum_cons]
      push_cast
      omega

lemma roundHalfEven_ge_one (q : ℚ) (h : 1 ≤ q) : 1 ≤ roundHalfEven q := by
  have hf : 1 ≤ ⌊q⌋ := by
    rw [Int.le_floor]
    exact_mod_cast h
  simp only [roundHalfEven]
  split_ifs <;> omega

lemma meanInterval_ge_one (p : List ℕ)
    (hmono : ∀ i j, i < j → j < p.length → getN p i < getN p j)
    (h2 : 2 ≤ p.length) : 1 ≤ meanInterval p := by
  rw [meanInterval]
  apply roundHalfEven_ge_one
  set diffs := (p.zip p.tail).map (fun ab => (ab.2 : ℤ) - (ab.1 : ℤ)) with hdiffs
  have hlen : diffs.length = p.length - 1 := by
    rw [hdiffs, List.length_map, List.length_zip, List.length_tail]
    omega
  have hall : ∀ x ∈ diffs, 1 ≤ x := by
    intro x hx
    rw [hdiffs] at hx
    obtain ⟨ab, hab, rfl⟩ := List.mem_map.mp hx
    obtain ⟨k, hk, hkeq⟩ := List.mem_iff_getElem.mp hab
    have hklen : k < p.length - 1 := by
      rw [List.length_zip, List.length_tail] at hk
      omega
    rw [List.getElem_zip] at hkeq
    have h1 : ab.1 = getN p k := by
      rw [← hkeq, getN, List.getD_eq_getElem _ _ (show k < p.length by omega)]
    have hkt : k < p.tail.length := by
      rw [List.length_tail]
      omega
    have h2x : ab.2 = getN p (k + 1) := by
      rw [← hkeq]
      show p.tail[k] = getN p (k + 1)
      rw [List.getElem_tail, getN, List.getD_eq_getElem _ _ (show k + 1 < p.length by omega)]
    have hlt := hmono k (k + 1) (by omega) (by omega)
    rw [h1, h2x]
    omega
  have hsum := int_sum_ge_length diffs hall
  have hpos : (0 : ℚ) < (diffs.length : ℚ) := by
    rw [hlen]
    exact_mod_cast (show 0 < p.length - 1 by omega)
  rw [le_div_iff₀ hpos, one_mul]
  exact_mod_cast hsum

lemma nanmean_of_single (l : List (Option ℚ)) (c : ℚ) (h0 : getQ l 0 = some c)
    (hrest : ∀ k, 1 ≤ k → getQ l k = none) : nanmean l = some c := by
  cases l with
  | nil => exact absurd h0 (by simp [getQ])
  | cons x t =>
      have hx : x = some c := h0
      subst hx
      have ht : List.filterMap id t = [] := by
        rw [List.filterMap_eq_nil_iff]
        intro a ha
        obtain ⟨k, hk, rfl⟩ := List.mem_iff_getElem.mp ha
        have hh := hrest (k + 1) (by omega)
        rw [getQ, List.getD_eq_getElem?_getD, List.getElem?_cons_succ,
          List.getElem?_eq_getElem hk] at hh
        exact hh
      rw [nanmean]
      simp only [List.filterMap_cons, id, ht]
      norm_num

lemma getQ_pySlice (l : List (Option ℚ)) (s m k : ℕ) :
    getQ (pySlice l s m) k = if s + k < m then getQ l (s + k) else none := by
  rw [pySlice, getQ_eq_getElem?, List.getElem?_drop, List.getElem?_take]
  by_cases h : s + k < m
  · rw [if_pos h, if_pos h, getQ_eq_getElem?]
  · rw [if_neg h, if_neg h]
    rfl

lemma getQ_downsample_last (values : List (Option ℚ)) (p : List ℕ) (hp : 1 ≤ p.length) :
    getQ (downsample values p) (p.length - 1) =
      nanmean (pySlice values (getN p (p.length - 1))
        (min values.length (((getN p (p.length - 1) : ℤ) + meanInterval p).toNat))) := by
  rw [downsample, downsampleWith, getQ_eq_getElem?, List.getElem?_map,
    List.getElem?_range (show p.length - 1 < p.length by omega)]
  simp only [Option.map_some', Option.getD_some, eq_self_iff_true, if_true]

end Bdbc

namespace Bdbc

lemma pairwise_getN_mono (p : List ℕ) (hmono : p.Pairwise (· < ·)) :
    ∀ i j, i < j → j < p.length → getN p i < getN p j := by
  intro i j hlt hj
  have h := List.pairwise_iff_getElem.mp hmono i j (by omega) hj hlt
  rwa [getN, getN, List.getD_eq_getElem _ _ (show i < p.length by omega),
    List.getD_eq_getElem _ _ hj]

/-- Claim C1 as amended: for an ascending pulse-index array whose last
entry fits in the output, with both endpoints of an immediately-adjacent
or bridged (gap of at most `max_skips` `NaN` pulses) pair of known
samples, `upsample` itself restores both endpoint values exactly at
their pulse positions; and when the right endpoint is the final pulse,
the full round trip `downsample(upsample(x, size, p), p)` with the
default mean reduction restores that final value exactly. At interior
pulse indices the round trip returns the mean of the interpolated ramp
over `[p[i], p[i+1])` instead of the original value, so the claim's
general round-trip law fails (see the counterexample). -/
theorem C1_roundtrip_amended (values : List (Option ℚ)) (p : List ℕ)
    (size maxSkips i j : ℕ) (a b : ℚ)
    (hmono : p.Pairwise (· < ·))
    (hij : i < j) (hj : j ≤ p.length - 1)
    (ha : getQ values i = some a) (hb : getQ values j = some b)
    (hgap : ∀ m, i < m → m < j → getQ values m = none)
    (hskips : j - i - 1 ≤ maxSkips)
    (hsize : getN p (p.length - 1) < size) :
    getQ (upsample values size p maxSkips) (getN p i) = some a ∧
    getQ (upsample values size p maxSkips) (getN p j) = some b ∧
    (j = p.length - 1 →
      getQ (downsample (upsample values size p maxSkips) p) (p.length - 1) = some b) := by
  have hmono' := pairwise_getN_mono p hmono
  have hlen2 : 2 ≤ p.length := by omega
  have hjlen : getN p j < size :=
    lt_of_le_of_lt (getN_mono_le p hmono' j (p.length - 1) hj (by omega)) hsize
  have hmain := loop_pulse_exact values p maxSkips hmono' p.length 0
    (List.replicate size none) i j a b (by omega) hij hj ha hb hgap hskips
    (by rwa [List.length_replicate]) (by omega)
  refine ⟨hmain.1, hmain.2, ?_⟩
  intro hjeq
  have hulen : (upsample values size p maxSkips).length = size := by
    rw [upsample, loop_length, List.length_replicate]
  have hlast : getQ (upsample values size p maxSkips) (getN p (p.length - 1)) = some b := by
    rw [← hjeq]
    exact hmain.2
  have hright : ∀ q, getN p (p.length - 1) < q →
      getQ (upsample values size p maxSkips) q = none := by
    intro q hq
    rw [upsample, loop_preserves_right values p maxSkips hmono' (by omega) _ _ _ _ hq,
      getQ_replicate]
  have hint : 1 ≤ meanInterval p := meanInterval_ge_one p hmono' hlen2
  rw [getQ_downsample_last _ p (by omega)]
  have hsm : getN p (p.length - 1) <
      min (upsample values size p maxSkips).length
        (((getN p (p.length - 1) : ℤ) + meanInterval p).toNat) := by
    rw [hulen]
    have hs1 : getN p (p.length - 1) < size := hsize
    omega
  apply nanmean_of_single
  · rw [getQ_pySlice, if_pos (by omega), Nat.add_zero]
    exact hlast
  · intro k hk
    rw [getQ_pySlice]
    by_cases hc : getN p (p.length - 1) + k <
        min (upsample values size p maxSkips).length
          (((getN p (p.length - 1) : ℤ) + meanInterval p).toNat)
    · rw [if_pos hc]
      exact hright _ (by omega)
    · rw [if_neg hc]

/-- Witness for the amended C1 at a concrete input: `x = [0, 2]`,
`p = [0, 2]`, `size = 3`: the upsampled signal holds `0` at position 0
and `2` at position 2, and the round trip restores the final value `2`. -/
theorem C1_roundtrip_amended_witness :
    getQ (upsample [some 0, some 2] 3 [0, 2] 1) (getN [0, 2] 0) = some 0 ∧
    getQ (upsample [some 0, some 2] 3 [0, 2] 1) (getN [0, 2] 1) = some 2 ∧
    getQ (downsample (upsample [some 0, some 2] 3 [0, 2] 1) [0, 2]) 1 = some 2 := by
  have h := C1_roundtrip_amended [some 0, some 2] [0, 2] 3 1 0 1 0 2
    (by decide) (by omega) (by decide)
    (by decide) (by decide)
    (fun m h1 h2 => by omega) (by omega) (by decide)
  exact ⟨h.1, h.2.1, h.2.2 rfl⟩

/-- Claim C7: every non-`NaN` value the output of `upsample` holds at a
position `q` lies within `[min a b, max a b]` of the two endpoint values
`a`, `b` of the interpolation span covering `q`: an
immediately-adjacent or bridged (only `NaN`s strictly between, gap at
most `max_skips`) pair of known samples `i < j` with `p[i] ≤ q ≤ p[j]`
(`onInterpSpan`); and for an ascending in-bounds pulse array the two
endpoint positions of every such interpolation pair receive exactly the
endpoint values. -/
theorem C7_interpolation_bounds (values : List (Option ℚ)) (size : ℕ) (p : List ℕ)
    (maxSkips : ℕ) :
    (∀ q v, getQ (upsample values size p maxSkips) q = some v →
      onInterpSpan values p maxSkips q v)
    ∧ (∀ i j a b, p.Pairwise (· < ·) → i < j → j ≤ p.length - 1 →
        getQ values i = some a → getQ values j = some b →
        (∀ m, i < m → m < j → getQ values m = none) →
        j - i - 1 ≤ maxSkips → getN p (p.length - 1) < size →
        getQ (upsample values size p maxSkips) (getN p i) = some a ∧
        getQ (upsample values size p maxSkips) (getN p j) = some b) := by
  constructor
  · intro q v h
    rw [upsample] at h
    refine loop_good values p maxSkips (p.length - 1) p.length 0 _ ?_ q v h
    intro q' v' h'
    rw [getQ_replicate] at h'
    exact Option.noConfusion h'
  · intro i j a b hmono hij hj ha hb hgap hskips hsize
    have hmono' := pairwise_getN_mono p hmono
    have hjlen : getN p j < size :=
      lt_of_le_of_lt (getN_mono_le p hmono' j (p.length - 1) hj (by omega)) hsize
    exact loop_pulse_exact values p maxSkips hmono' p.length 0
      (List.replicate size none) i j a b (by omega) hij hj ha hb hgap hskips
      (by rwa [List.length_replicate]) (by omega)

/-- Witness for C7 at a concrete input: the interpolated middle value
`1` at position 1 of `upsample([0, 2], 3, [0, 2])` is bounded by the
endpoints of the span covering position 1, and the two endpoint
positions hold exactly `0` and `2`. -/
theorem C7_interpolation_bounds_witness :
    onInterpSpan [some 0, some 2] [0, 2] 1 1 1 ∧
    getQ (upsample [some 0, some 2] 3 [0, 2] 1) (getN [0, 2] 0) = some 0 ∧
    getQ (upsample [some 0, some 2] 3 [0, 2] 1) (getN [0, 2] 1) = some 2 := by
  have h := C7_interpolation_bounds [some 0, some 2] 3 [0, 2] 1
  refine ⟨h.1 1 1 ?_, h.2 0 1 0 2 (by decide) (by omega) (by decide) (by decide)
    (by decide) (fun m h1 h2 => by omega) (by omega) (by decide)⟩
  norm_num [upsample, upsampleLoop, writeLinear, writeLinearAux, linVal,
    getQ, getN, findSkip, findSkipAux, List.replicate, List.set]

end Bdbc

namespace Bdbc

lemma advanceOffset_le (pulse_t : List ℚ) (pulsesiz : ℕ) (daqtrig : ℚ) :
    ∀ fuel offset, offset ≤ pulsesiz - 1 →
      advanceOffset pulse_t pulsesiz daqtrig fuel offset ≤ pulsesiz - 1 := by
  intro fuel
  induction fuel with
  | zero => intro offset h; exact h
  | succ fuel ih =>
      intro offset h
      rw [advanceOffset]
      by_cases hc : offset + 1 < pulsesiz ∧ getQ0 pulse_t (offset + 1) < daqtrig
      · rw [if_pos hc]
        exact ih (offset + 1) (by omega)
      · rw [if_neg hc]
        exact h

lemma d2pLoop_range (daq_t pulse_t : List ℚ) (n : ℕ) (hn : 2 ≤ n) :
    ∀ xs offset, offset ≤ n - 1 →
      ∀ e ∈ d2pLoop daq_t pulse_t n offset xs,
        e = -2 ∨ e = -1 ∨ (1 ≤ e ∧ e ≤ (n : ℤ) - 2) := by
  intro xs
  induction xs with
  | nil => intro offset _ e he; simp [d2pLoop] at he
  | cons daqidx rest ih =>
      intro offset hoff e he
      rw [d2pLoop] at he
      by_cases h1 : daqidx = -1
      · rw [if_pos h1] at he
        rcases List.mem_cons.mp he with rfl | hmem
        · right; left; rfl
        · exact ih offset hoff e hmem
      · rw [if_neg h1] at he
        have ho'le : advanceOffset pulse_t n (pyIndex daq_t daqidx) n offset ≤ n - 1 :=
          advanceOffset_le pulse_t n (pyIndex daq_t daqidx) n offset hoff
        by_cases h2 : advanceOffset pulse_t n (pyIndex daq_t daqidx) n offset = 0
        · rw [if_pos h2] at he
          rcases List.mem_cons.mp he with rfl | hmem
          · left; rfl
          · exact ih _ (by omega) e hmem
        · rw [if_neg h2] at he
          by_cases h3 : advanceOffset pulse_t n (pyIndex daq_t daqidx) n offset = n - 1
          · rw [if_pos h3] at he
            rcases List.mem_cons.mp he with rfl | hmem
            · left; rfl
            · obtain ⟨_, _, rfl⟩ := List.mem_map.mp hmem
              left; rfl
          · rw [if_neg h3] at he
            rcases List.mem_cons.mp he with rfl | hmem
            · right; right
              constructor <;> omega
            · exact ih _ (by omega) e hmem

/-- Claim C9: with at least two pulses, every entry that
`daqindex_to_pulseindex` returns is `-2`, `-1`, or an interval index `k`
with `1 ≤ k ≤ n - 2`; in particular the values `0` and `n - 1` never
occur (a DAQ index inside the first pulse interval maps to the
out-of-period sentinel `-2`, not to interval 0). -/
theorem C9_pulseindex_range (daqidxx : List ℤ) (daq_t pulse_t : List ℚ)
    (hn : 2 ≤ pulse_t.length) :
    (∀ e ∈ daqindex_to_pulseindex daqidxx daq_t pulse_t,
        e = -2 ∨ e = -1 ∨ (1 ≤ e ∧ e ≤ (pulse_t.length : ℤ) - 2))
    ∧ (0 : ℤ) ∉ daqindex_to_pulseindex daqidxx daq_t pulse_t
    ∧ ((pulse_t.length : ℤ) - 1) ∉ daqindex_to_pulseindex daqidxx daq_t pulse_t := by
  have hrange := d2pLoop_range daq_t pulse_t pulse_t.length hn daqidxx 0 (by omega)
  refine ⟨hrange, ?_, ?_⟩
  · intro hmem
    rcases hrange 0 hmem with h | h | h <;> omega
  · intro hmem
    rcases hrange _ hmem with h | h | h <;> omega

/-- Witness for C9 at a concrete input: a single DAQ index inside the
first pulse interval maps to `-2`, never to interval `0`. -/
theorem C9_pulseindex_range_witness :
    (0 : ℤ) ∉ daqindex_to_pulseindex [0] [0] [0, 1] :=
  (C9_pulseindex_range [0] [0] [0, 1] (by decide)).2.1

end Bdbc

namespace Bdbc

lemma d2pLoop_length (daq_t pulse_t : List ℚ) (n : ℕ) :
    ∀ xs offset, (d2pLoop daq_t pulse_t n offset xs).length = xs.length := by
  intro xs
  induction xs with
  | nil => intro offset; rfl
  | cons daqidx rest ih =>
      intro offset
      rw [d2pLoop]
      by_cases h1 : daqidx = -1
      · rw [if_pos h1]
        simp [ih offset]
      · rw [if_neg h1]
        by_cases h2 : advanceOffset pulse_t n (pyIndex daq_t daqidx) n offset = 0
        · rw [if_pos h2]
          simp [ih]
        · rw [if_neg h2]
          by_cases h3 : advanceOffset pulse_t n (pyIndex daq_t daqidx) n offset = n - 1
          · rw [if_pos h3]
            simp
          · rw [if_neg h3]
            simp [ih]

lemma d2p_length (xs : List ℤ) (daq_t pulse_t : List ℚ) :
    (daqindex_to_pulseindex xs daq_t pulse_t).length = xs.length :=
  d2pLoop_length daq_t pulse_t pulse_t.length xs 0

lemma alignColumn_ok (trials : String → List ℤ) (daq_t pulse_t : List ℚ)
    (c t : String) (r : String × List ℤ)
    (h : alignColumn trials daq_t pulse_t c t = Except.ok r) :
    r.1 = c ∧ r.2.length = (trials c).length := by
  rw [alignColumn] at h
  by_cases h1 : t = "time"
  · rw [if_pos h1] at h
    injection h with h
    subst h
    exact ⟨rfl, d2p_length _ _ _⟩
  · rw [if_neg h1] at h
    by_cases h2 : t = "value"
    · rw [if_pos h2] at h
      injection h with h
      subst h
      exact ⟨rfl, rfl⟩
    · rw [if_neg h2] at h
      exact Except.noConfusion h

lemma align_mapM_ok (trials : String → List ℤ) (daq_t pulse_t : List ℚ) :
    ∀ (cs : List (String × String)) aligned,
      cs.mapM (fun ct => alignColumn trials daq_t pulse_t ct.1 ct.2)
        = Except.ok aligned →
      aligned.map Prod.fst = cs.map Prod.fst ∧
      ∀ nc ∈ aligned, nc.2.length = (trials nc.1).length := by
  intro cs
  induction cs with
  | nil =>
      intro aligned h
      simp only [List.mapM_nil, pure, Except.pure] at h
      injection h with h
      subst h
      exact ⟨rfl, fun nc hnc => absurd hnc (List.not_mem_nil nc)⟩
  | cons ct cts ih =>
      intro aligned h
      rw [List.mapM_cons] at h
      cases hr : alignColumn trials daq_t pulse_t ct.1 ct.2 with
      | error e =>
          rw [hr] at h
          simp [Bind.bind, Except.bind] at h
      | ok r =>
          rw [hr] at h
          cases hrs : cts.mapM (fun ct => alignColumn trials daq_t pulse_t ct.1 ct.2) with
          | error e =>
              rw [hrs] at h
              simp [Bind.bind, Except.bind] at h
          | ok rs =>
              rw [hrs] at h
              simp only [Bind.bind, Except.bind, pure, Except.pure] at h
              injection h with h
              subst h
              obtain ⟨hname, hlen⟩ := alignColumn_ok trials daq_t pulse_t ct.1 ct.2 r hr
              obtain ⟨ih1, ih2⟩ := ih rs hrs
              refine ⟨?_, ?_⟩
              · simp [hname, ih1]
              · intro nc hnc
                rcases List.mem_cons.mp hnc with rfl | hmem
                · rw [hname]
                  exact hlen
                · exact ih2 nc hmem

lemma maskFilter_length : ∀ (mask : List Bool) (col : List ℤ),
    (maskFilter mask col).length ≤ col.length := by
  intro mask
  induction mask with
  | nil => intro col; cases col <;> simp [maskFilter]
  | cons b bs ih =>
      intro col
      cases col with
      | nil => simp [maskFilter]
      | cons c cs =>
          rw [maskFilter]
          by_cases hb : b = true
          · rw [if_pos hb]
            simpa using ih cs
          · rw [if_neg hb]
            have := ih cs
            simp only [List.length_cons]
            omega

lemma startMask (s' e' : ℤ) : (!(s' == (-2 : ℤ) || e' == (-2 : ℤ))) = true ↔
    s' ≠ -2 ∧ e' ≠ -2 := by
  constructor
  · intro h
    simp only [Bool.not_eq_eq_eq_not, Bool.not_true, Bool.or_eq_false_iff, beq_eq_false_iff_ne,
      ne_eq] at h
    exact h
  · intro h
    simp [h.1, h.2]

lemma maskFilter_zipWith_left : ∀ (s e : List ℤ),
    (-2 : ℤ) ∉ maskFilter
      (List.zipWith (fun a b => !(a == (-2 : ℤ) || b == (-2 : ℤ))) s e) s := by
  intro s
  induction s with
  | nil => intro e; simp [maskFilter]
  | cons a s' ih =>
      intro e
      cases e with
      | nil => simp [maskFilter]
      | cons b e' =>
          rw [List.zipWith_cons_cons, maskFilter]
          by_cases hm : (!(a == (-2 : ℤ) || b == (-2 : ℤ))) = true
          · rw [if_pos hm]
            have ha : a ≠ -2 := ((startMask a b).mp hm).1
            intro hmem
            rcases List.mem_cons.mp hmem with rfl | hmem'
            · exact ha rfl
            · exact ih e' hmem'
          · rw [if_neg hm]
            exact ih e'

lemma maskFilter_zipWith_right : ∀ (s e : List ℤ),
    (-2 : ℤ) ∉ maskFilter
      (List.zipWith (fun a b => !(a == (-2 : ℤ) || b == (-2 : ℤ))) s e) e := by
  intro s
  induction s with
  | nil => intro e; cases e <;> simp [maskFilter]
  | cons a s' ih =>
      intro e
      cases e with
      | nil => simp [maskFilter]
      | cons b e' =>
          rw [List.zipWith_cons_cons, maskFilter]
          by_cases hm : (!(a == (-2 : ℤ) || b == (-2 : ℤ))) = true
          · rw [if_pos hm]
            have hb : b ≠ -2 := ((startMask a b).mp hm).2
            intro hmem
            rcases List.mem_cons.mp hmem with rfl | hmem'
            · exact hb rfl
            · exact ih e' hmem'
          · rw [if_neg hm]
            exact ih e'

lemma lookup_map_value (g : List ℤ → List ℤ) :
    ∀ (l : List (String × List ℤ)) (k : String),
      (l.map (fun nc => (nc.1, g nc.2))).lookup k = (l.lookup k).map g := by
  intro l
  induction l with
  | nil => intro k; rfl
  | cons nc t ih =>
      intro k
      simp only [List.map_cons, List.lookup]
      by_cases hk : (k == nc.1) = true
      · rw [hk]
        rfl
      · rw [Bool.not_eq_true] at hk
        rw [hk]
        exact ih k

lemma lookup_eq_of_mem_nodup :
    ∀ (l : List (String × List ℤ)), (l.map Prod.fst).Nodup →
      ∀ n c, (n, c) ∈ l → l.lookup n = some c := by
  intro l
  induction l with
  | nil => intro _ n c h; exact absurd h (List.not_mem_nil _)
  | cons ab t ih =>
      intro hnodup n c hmem
      simp only [List.map_cons, List.nodup_cons] at hnodup
      rcases List.mem_cons.mp hmem with rfl | hmem'
      · simp [List.lookup]
      · have hne : n ≠ ab.1 := by
          intro hEq
          exact hnodup.1 (List.mem_map.mpr ⟨(n, c), hmem', by rw [hEq]⟩)
        simp only [List.lookup, beq_eq_false_iff_ne.mpr hne]
        exact ih hnodup.2 n c hmem'

end Bdbc

namespace Bdbc

/-- Claim C4: whenever `align_trials_to_pulses` succeeds on settings
declaring `'start'` and `'end'` as `'time'` columns (with no duplicate
column names), no surviving row has `-2` in its aligned `start` or `end`
column — rows whose start or end mapped to the out-of-period sentinel
are dropped — and every output column is no longer than the
corresponding input column. -/
theorem C4_out_of_period_rows_dropped (trials : String → List ℤ)
    (daq_t pulse_t : List ℚ) (cs : List (String × String))
    (out : List (String × List ℤ))
    (hnodup : (cs.map Prod.fst).Nodup)
    (hstart : ("start", "time") ∈ cs) (hend : ("end", "time") ∈ cs)
    (h : align_trials_to_pulses trials daq_t pulse_t cs = Except.ok out) :
    (∀ nc ∈ out, nc.1 = "start" → (-2 : ℤ) ∉ nc.2)
    ∧ (∀ nc ∈ out, nc.1 = "end" → (-2 : ℤ) ∉ nc.2)
    ∧ (∀ nc ∈ out, nc.2.length ≤ (trials nc.1).length) := by
  have hks : "start" ∈ cs.map Prod.fst := List.mem_map.mpr ⟨_, hstart, rfl⟩
  have hke : "end" ∈ cs.map Prod.fst := List.mem_map.mpr ⟨_, hend, rfl⟩
  rw [align_trials_to_pulses] at h
  simp only [hks, hke, not_true_eq_false, if_false, Bind.bind, Except.bind, pure,
    Except.pure] at h
  cases hma : cs.mapM (fun ct => alignColumn trials daq_t pulse_t ct.1 ct.2) with
  | error e =>
      rw [hma] at h
      exact Except.noConfusion h
  | ok aligned =>
      rw [hma] at h
      injection h with h
      obtain ⟨hnames, hlens⟩ := align_mapM_ok trials daq_t pulse_t cs aligned hma
      have hanodup : (aligned.map Prod.fst).Nodup := by
        rw [hnames]
        exact hnodup
      subst h
      refine ⟨?_, ?_, ?_⟩
      · intro nc hnc hname
        obtain ⟨mc, hmc, rfl⟩ := List.mem_map.mp hnc
        have hmc1 : mc.1 = "start" := hname
        have hlook : aligned.lookup "start" = some mc.2 := by
          rw [← hmc1]
          exact lookup_eq_of_mem_nodup aligned hanodup mc.1 mc.2 (by simpa using hmc)
        rw [hlook]
        simp only [Option.getD_some]
        exact maskFilter_zipWith_left mc.2 ((aligned.lookup "end").getD [])
      · intro nc hnc hname
        obtain ⟨mc, hmc, rfl⟩ := List.mem_map.mp hnc
        have hmc1 : mc.1 = "end" := hname
        have hlook : aligned.lookup "end" = some mc.2 := by
          rw [← hmc1]
          exact lookup_eq_of_mem_nodup aligned hanodup mc.1 mc.2 (by simpa using hmc)
        rw [hlook]
        simp only [Option.getD_some]
        exact maskFilter_zipWith_right ((aligned.lookup "start").getD []) mc.2
      · intro nc hnc
        obtain ⟨mc, hmc, rfl⟩ := List.mem_map.mp hnc
        exact le_trans (maskFilter_length _ mc.2) (le_of_eq (hlens mc hmc))

/-- Witness for C4 at a concrete input: the trial with `start = end = 15`
lands in interior pulse interval 1 and survives with no `-2` anywhere. -/
theorem C4_out_of_period_rows_dropped_witness :
    (-2 : ℤ) ∉ [(1 : ℤ)] := by
  have h := C4_out_of_period_rows_dropped (fun _ => [15])
    ((List.range 16).map (fun k => (k : ℚ))) [0, 10, 20, 30]
    [("start", "time"), ("end", "time")]
    [("start", [1]), ("end", [1])]
    (by decide) (by decide) (by decide) (by rfl)
  exact h.1 ("start", [1]) (by decide) rfl

end Bdbc

namespace Bdbc

/-- Witness for C10 at a concrete input. -/
theorem C10_resampler_copies_equal_witness :
    tracking.upsample [some 0, some 2] 3 [0, 2] 1 = upsample [some 0, some 2] 3 [0, 2] 1
    ∧ tracking.downsample [some 0, some 1] [0, 1] = downsample [some 0, some 1] [0, 1] :=
  ⟨C10_resampler_copies_equal.1 [some 0, some 2] 3 [0, 2] 1,
   C10_resampler_copies_equal.2.2 [some 0, some 1] [0, 1]⟩

end Bdbc
